import Mathlib

/-!
Shallow embedding of the heightmap synthesis pipeline of
`src/assets/main.js` (heightmap-viewer).

JavaScript numbers are modelled as exact rationals.  A JavaScript
expression whose value is not a finite number (`NaN`, which arises in this
program only from the division `0 / 0` inside `normaliseBetween` when the
array is constant) is modelled as `none : Option ℚ`.  The exponent passed
to `Math.pow` is modelled as a natural number.
-/

namespace Heightmap

/-- Division as performed by JavaScript in `normaliseBetween`
(main.js line 30): when the denominator is zero the result is not a
finite number (in this program the numerator is zero whenever the
denominator is, so the JS value is `NaN`); modelled as `none`. -/
def jsDiv (a b : ℚ) : Option ℚ :=
  if b = 0 then none else some (a / b)

/-- JavaScript comparison `<=` on possibly-NaN values: in JS every
comparison involving `NaN` evaluates to `false`. -/
def jsLe (a b : Option ℚ) : Bool :=
  match a, b with
  | some x, some y => x ≤ y
  | _, _ => false

/-- `Array.prototype.normaliseBetween` (main.js lines 26-31): rescale the
values of the array so that its minimum maps to `mn` and its maximum to
`mx`.  `amin` and `amax` are `Math.min(...this)` and `Math.max(...this)`;
the `getD 0` default is irrelevant because on the empty array the result
is the empty array. -/
def normaliseBetween (l : List ℚ) (mn mx : ℚ) : List (Option ℚ) :=
  let amin := l.min?.getD 0
  let amax := l.max?.getD 0
  l.map fun v => (jsDiv ((v - amin) * (mx - mn)) (amax - amin)).map (· + mn)

/-- The inner helper `nv` of `Noise` (main.js lines 245-247): rescale a
base noise sample from `[-1, 1]` to `[0, 1]`. -/
def nv (noise2D : ℚ → ℚ → ℚ) (nx ny : ℚ) : ℚ :=
  noise2D nx ny / 2 + 0.5

/-- The inner `Noise` function of `Terrain.generate` (main.js lines
244-261): fold over the amplitude array, accumulating the weighted noise
sum `e` (first component) and the weight total `ampTotal` (second
component), then raise `e / ampTotal` to `exponent`. -/
def Noise (noise2D : ℚ → ℚ → ℚ) (amplitudes : List ℚ) (exponent : ℕ)
    (x y : ℚ) : ℚ :=
  let acc := amplitudes.foldl
    (fun (acc : ℚ × ℚ) amp =>
      (acc.1 + (1 / amp) * nv noise2D (x * amp) (y * amp), acc.2 + 1 / amp))
    (0, 0)
  (acc.1 / acc.2) ^ exponent

/-- The per-cell loop of `Terrain.generate` (main.js lines 263-276): for
each linear index `i` below `lod * lod`, take `x = i % lod` and
`y = i / lod` (integer division models `~~(i / lod)` for non-negative
values) and sample `Noise` at `(x / (lod / frequency), y / (lod / frequency))`. -/
def nvsList (lod : ℕ) (frequency : ℚ) (exponent : ℕ) (amplitudes : List ℚ)
    (noise2D : ℚ → ℚ → ℚ) : List ℚ :=
  (List.range (lod * lod)).map fun i =>
    Noise noise2D amplitudes exponent
      (((i % lod : ℕ) : ℚ) / ((lod : ℚ) / frequency))
      (((i / lod : ℕ) : ℚ) / ((lod : ℚ) / frequency))

/-- `Terrain.generate` (main.js lines 235-280): build the flat noise array
and normalise it to `[0, 1]` when `normalise` is set.  The `seed`
parameter of the source is unused in the body (the noise function is read
from `this.noise2D`), so the model takes the base noise function directly;
`lod` is read from `this.lod`, modelled as an argument. -/
def generate (lod : ℕ) (frequency : ℚ) (exponent : ℕ) (amplitudes : List ℚ)
    (normalise : Bool) (noise2D : ℚ → ℚ → ℚ) : List (Option ℚ) :=
  let nvs := nvsList lod frequency exponent amplitudes noise2D
  if normalise then normaliseBetween nvs 0 1 else nvs.map some

/-- The amplitude-array construction of `updateVars` (main.js lines
289-296): start from `[1]` and push `previous + ampl` once per loop
iteration; `buildAmpsAux ampl n` is the array after `n` iterations. -/
def buildAmpsAux (ampl : ℚ) : ℕ → List ℚ
  | 0 => [1]
  | n + 1 =>
    let prev := buildAmpsAux ampl n
    prev ++ [prev.getLastD 0 + ampl]

/-- The amplitude array for `octv` octaves: the loop of `updateVars` runs
for `i = 1` up to `octv - 1`, i.e. `octv - 1` iterations. -/
def buildAmps (octv : ℕ) (ampl : ℚ) : List ℚ :=
  buildAmpsAux ampl (octv - 1)

/-- Line 349 of main.js: the level of detail taken from the URL hash,
`Math.max(128, Math.min(hash || 128, 512))`; `none` models an absent
(empty) hash, which the `|| 128` default replaces by `128`. -/
def lodFromHash (h : Option ℚ) : ℚ :=
  max 128 (min (h.getD 128) 512)

/-! Helper lemmas about the fold inside `Noise`. -/

/-- The fold of `Noise` computes, componentwise, the weighted noise sum
and the weight total. -/
lemma noise_foldl (noise2D : ℚ → ℚ → ℚ) (x y : ℚ) :
    ∀ (amplitudes : List ℚ) (e0 t0 : ℚ),
      amplitudes.foldl
        (fun (acc : ℚ × ℚ) amp =>
          (acc.1 + (1 / amp) * nv noise2D (x * amp) (y * amp), acc.2 + 1 / amp))
        (e0, t0)
      = (e0 + (amplitudes.map fun a => (1 / a) * nv noise2D (x * a) (y * a)).sum,
         t0 + (amplitudes.map fun a => 1 / a).sum) := by
  intro amplitudes
  induction amplitudes with
  | nil => intro e0 t0; simp
  | cons a l ih =>
    intro e0 t0
    simp only [List.foldl_cons, List.map_cons, List.sum_cons, ih]
    simp only [Prod.mk.injEq]
    constructor <;> ring

/-- `Noise` as a closed formula: the weighted average of the rescaled
noise samples, raised to the exponent. -/
lemma Noise_eq (noise2D : ℚ → ℚ → ℚ) (amplitudes : List ℚ) (exponent : ℕ)
    (x y : ℚ) :
    Noise noise2D amplitudes exponent x y
      = ((amplitudes.map fun a => (1 / a) * nv noise2D (x * a) (y * a)).sum
          / (amplitudes.map fun a => 1 / a).sum) ^ exponent := by
  unfold Noise
  rw [noise_foldl]
  simp

/-- Claim C1: the inner `Noise` function returns the weighted sum of the
rescaled base noise samples divided by the weight total, raised to the
exponent; for the single-element amplitude schedule `[1]` this reduces to
`(noiseFn(x, y) / 2 + 0.5) ^ exponent`. -/
theorem claim1_sampleNoise_formula (noise2D : ℚ → ℚ → ℚ)
    (amplitudes : List ℚ) (exponent : ℕ) (x y : ℚ)
    (hne : amplitudes ≠ []) (hpos : ∀ a ∈ amplitudes, 0 < a) :
    Noise noise2D amplitudes exponent x y
      = ((amplitudes.map fun a => (1 / a) * (noise2D (x * a) (y * a) / 2 + 0.5)).sum
          / (amplitudes.map fun a => 1 / a).sum) ^ exponent
    ∧ Noise noise2D [1] exponent x y = (noise2D x y / 2 + 0.5) ^ exponent := by
  constructor
  · rw [Noise_eq]; rfl
  · rw [Noise_eq]; simp [nv]

/-- Witness for claim C1 at a concrete schedule, noise function and point. -/
theorem claim1_witness :
    ([(1 : ℚ), 2] ≠ [])
    ∧ (∀ a ∈ [(1 : ℚ), 2], 0 < a)
    ∧ (Noise (fun _ _ => (0 : ℚ)) [1, 2] 2 3 5
        = (([(1 : ℚ), 2].map fun a =>
              (1 / a) * ((fun _ _ => (0 : ℚ)) (3 * a) (5 * a) / 2 + 0.5)).sum
            / ([(1 : ℚ), 2].map fun a => 1 / a).sum) ^ 2
      ∧ Noise (fun _ _ => (0 : ℚ)) [1] 2 3 5
          = ((fun _ _ => (0 : ℚ)) (3 : ℚ) (5 : ℚ) / 2 + 0.5) ^ 2) :=
  ⟨by simp, by norm_num,
    claim1_sampleNoise_formula (fun _ _ => 0) [1, 2] 2 3 5 (by simp) (by norm_num)⟩

/-! The amplitude schedule. -/

/-- Closed form of the amplitude-array loop: after `n` iterations the
array is `[1, 1 + ampl, ..., 1 + n * ampl]`. -/
lemma buildAmpsAux_eq (ampl : ℚ) :
    ∀ n, buildAmpsAux ampl n
      = (List.range (n + 1)).map fun i : ℕ => 1 + (i : ℚ) * ampl := by
  intro n
  induction n with
  | zero =>
    rw [show List.range (0 + 1) = [0] from rfl]
    simp [buildAmpsAux]
  | succ n ih =>
    rw [buildAmpsAux, ih]
    rw [List.range_succ (n := n + 1), List.map_append]
    have hlast : ((List.range (n + 1)).map fun i : ℕ => 1 + (i : ℚ) * ampl).getLastD 0
        = 1 + n * ampl := by
      rw [List.range_succ, List.map_append]
      simp
    rw [hlast]
    simp only [List.map_cons, List.map_nil, List.cons_append, List.nil_append,
      List.append_cancel_left_eq, Nat.cast_add, Nat.cast_one]
    congr 1
    ring

/-- Claim C5: for `octv ≥ 1` the amplitude schedule has length exactly
`octv`, starts at `1`, and each subsequent element adds `ampl`; in
particular one octave gives `[1]` for any step, four octaves with step 2
give `[1, 3, 5, 7]`, and four octaves with step 1 give `[1, 2, 3, 4]`. -/
theorem claim5_amplitude_schedule (octv : ℕ) (ampl s : ℚ) (h : 1 ≤ octv) :
    (buildAmps octv ampl).length = octv
    ∧ (buildAmps octv ampl).head? = some 1
    ∧ (∀ i, i + 1 < octv →
        (buildAmps octv ampl)[i + 1]? = ((buildAmps octv ampl)[i]?).map (· + ampl))
    ∧ buildAmps 1 s = [1]
    ∧ buildAmps 4 2 = [1, 3, 5, 7]
    ∧ buildAmps 4 1 = [1, 2, 3, 4] := by
  have hoct : octv - 1 + 1 = octv := Nat.succ_pred_eq_of_pos h
  have hForm : buildAmps octv ampl
      = (List.range octv).map fun i : ℕ => 1 + (i : ℚ) * ampl := by
    rw [show buildAmps octv ampl = buildAmpsAux ampl (octv - 1) from rfl,
      buildAmpsAux_eq, hoct]
  have hF4 : ∀ a : ℚ, buildAmps 4 a
      = [0, 1, 2, 3].map fun i : ℕ => 1 + (i : ℚ) * a := by
    intro a
    rw [show buildAmps 4 a = buildAmpsAux a 3 from rfl, buildAmpsAux_eq,
      show List.range (3 + 1) = [0, 1, 2, 3] from rfl]
  refine ⟨?_, ?_, ?_, rfl, ?_, ?_⟩
  · rw [hForm, List.length_map, List.length_range]
  · rw [hForm]
    cases octv with
    | zero => omega
    | succ n => simp [List.range_succ_eq_map]
  · intro i hi
    rw [hForm]
    rw [List.getElem?_map, List.getElem?_map, List.getElem?_range hi,
      List.getElem?_range (by omega)]
    simp only [Option.map_some']
    congr 1
    push_cast
    ring
  · rw [hF4]
    norm_num
  · rw [hF4]
    norm_num

/-- Witness for claim C5 at four octaves with step 2. -/
theorem claim5_witness :
    (buildAmps 4 2).length = 4
    ∧ (buildAmps 4 2).head? = some 1
    ∧ (buildAmps 4 2)[2]? = ((buildAmps 4 2)[1]?).map (· + 2)
    ∧ buildAmps 1 3 = [1]
    ∧ buildAmps 4 2 = [1, 3, 5, 7]
    ∧ buildAmps 4 1 = [1, 2, 3, 4] :=
  ⟨(claim5_amplitude_schedule 4 2 3 (by decide)).1,
   (claim5_amplitude_schedule 4 2 3 (by decide)).2.1,
   (claim5_amplitude_schedule 4 2 3 (by decide)).2.2.1 1 (by decide),
   (claim5_amplitude_schedule 4 2 3 (by decide)).2.2.2.1,
   (claim5_amplitude_schedule 4 2 3 (by decide)).2.2.2.2.1,
   (claim5_amplitude_schedule 4 2 3 (by decide)).2.2.2.2.2⟩

/-- Claim C8: `generate` is deterministic in its parameters and the
behaviour of the base noise function: two calls with pointwise equal noise
functions and identical parameters return identical sequences. -/
theorem claim8_deterministic (lod : ℕ) (frequency : ℚ) (exponent : ℕ)
    (amplitudes : List ℚ) (normalise : Bool) (f g : ℚ → ℚ → ℚ)
    (hfg : ∀ x y, f x y = g x y) :
    generate lod frequency exponent amplitudes normalise f
      = generate lod frequency exponent amplitudes normalise g := by
  have hf : f = g := funext fun x => funext fun y => hfg x y
  rw [hf]

/-- Witness for claim C8 at concrete parameters. -/
theorem claim8_witness :
    generate 1 1 1 [1] true (fun _ _ => (0 : ℚ))
      = generate 1 1 1 [1] true (fun _ _ => (0 : ℚ)) :=
  claim8_deterministic 1 1 1 [1] true _ _ (fun _ _ => rfl)

/-- Claim C10: the level of detail from the URL hash is clamped into
`[128, 512]` at startup, and an absent hash defaults to `128`. -/
theorem claim10_lod_clamped :
    lodFromHash none = 128
    ∧ (∀ h : ℚ, lodFromHash (some h) = max 128 (min h 512))
    ∧ (∀ h : ℚ, 128 ≤ lodFromHash (some h) ∧ lodFromHash (some h) ≤ 512) := by
  refine ⟨by norm_num [lodFromHash], fun h => rfl, fun h => ⟨le_max_left _ _, ?_⟩⟩
  exact max_le (by norm_num) (min_le_right _ _)

/-- Claim C3, behaviour at the failing input: normalising the constant
array `[5, 5, 5]` divides `0` by `0` and yields `NaN` (modelled `none`)
for every element, not a well-defined constant sequence. -/
theorem claim3_constant_input_nan :
    normaliseBetween [5, 5, 5] 0 1 = [none, none, none] := by
  have hmin : ([5, 5, 5] : List ℚ).min? = some 5 := by
    rw [show ([5, 5, 5] : List ℚ).min? = some (min (min 5 5) 5) from rfl]
    norm_num
  have hmax : ([5, 5, 5] : List ℚ).max? = some 5 := by
    rw [show ([5, 5, 5] : List ℚ).max? = some (max (max 5 5) 5) from rfl]
    norm_num
  simp [normaliseBetween, hmin, hmax, jsDiv]

/-- Claim C7, behaviour at the failing input: `generate` contains no
parameter validation at all; with `lod = 0` it silently returns the empty
array instead of rejecting the call. -/
theorem claim7_no_validation :
    generate 0 1 1 [1] false (fun _ _ => 0) = [] := rfl


/-- Claim C2: with valid parameters, `generate` without normalisation
returns a flat sequence of exactly `lod * lod` values whose entry at
linear index `i` is the noise sample at `x = i % lod`, `y = i / lod`,
with both coordinates divided by `lod / frequency`, in index order. -/
theorem claim2_generate_grid (lod : ℕ) (frequency : ℚ) (exponent : ℕ)
    (amplitudes : List ℚ) (noise2D : ℚ → ℚ → ℚ)
    (hlod : 1 ≤ lod) (hfreq : 1 ≤ frequency) (hexp : 1 ≤ exponent)
    (hamp : amplitudes ≠ []) :
    (generate lod frequency exponent amplitudes false noise2D).length = lod * lod
    ∧ ∀ i, i < lod * lod →
        (generate lod frequency exponent amplitudes false noise2D)[i]?
          = some (some (Noise noise2D amplitudes exponent
              (((i % lod : ℕ) : ℚ) / ((lod : ℚ) / frequency))
              (((i / lod : ℕ) : ℚ) / ((lod : ℚ) / frequency)))) := by
  constructor
  · simp [generate, nvsList]
  · intro i hi
    simp only [generate, nvsList, Bool.false_eq_true, if_false, List.getElem?_map,
      List.getElem?_range hi, Option.map_some']

/-- Witness for claim C2 on a two-by-two grid. -/
theorem claim2_witness :
    (generate 2 1 1 [1] false fun _ _ => (0 : ℚ)).length = 2 * 2
    ∧ (generate 2 1 1 [1] false fun _ _ => (0 : ℚ))[3]?
        = some (some (Noise (fun _ _ => (0 : ℚ)) [1] 1
            (((3 % 2 : ℕ) : ℚ) / ((2 : ℚ) / 1)) (((3 / 2 : ℕ) : ℚ) / ((2 : ℚ) / 1)))) :=
  ⟨(claim2_generate_grid 2 1 1 [1] (fun _ _ => 0) (by norm_num) (by norm_num)
      (by norm_num) (by simp)).1,
   (claim2_generate_grid 2 1 1 [1] (fun _ _ => 0) (by norm_num) (by norm_num)
      (by norm_num) (by simp)).2 3 (by norm_num)⟩

/-! Minimum and maximum of a list of rationals. -/

/-- A non-empty list has a minimum, which belongs to the list and bounds
every element from below. -/
lemma min?_spec (l : List ℚ) (hne : l ≠ []) :
    ∃ amin, l.min? = some amin ∧ amin ∈ l ∧ ∀ x ∈ l, amin ≤ x := by
  have anti : Std.Antisymm ((· : ℚ) ≤ ·) := ⟨fun hu hv => le_antisymm hu hv⟩
  cases hm : l.min? with
  | none =>
    cases l with
    | nil => exact absurd rfl hne
    | cons a t => exact absurd hm (by simp [List.min?])
  | some m =>
    rw [List.min?_eq_some_iff (fun a => le_refl a) (fun a b => min_choice a b)
      (fun a b c => le_min_iff)] at hm
    exact ⟨m, rfl, hm.1, hm.2⟩

/-- A non-empty list has a maximum, which belongs to the list and bounds
every element from above. -/
lemma max?_spec (l : List ℚ) (hne : l ≠ []) :
    ∃ amax, l.max? = some amax ∧ amax ∈ l ∧ ∀ x ∈ l, x ≤ amax := by
  have anti : Std.Antisymm ((· : ℚ) ≤ ·) := ⟨fun hu hv => le_antisymm hu hv⟩
  cases hm : l.max? with
  | none =>
    cases l with
    | nil => exact absurd rfl hne
    | cons a t => exact absurd hm (by simp [List.max?])
  | some m =>
    rw [List.max?_eq_some_iff (fun a => le_refl a) (fun a b => max_choice a b)
      (fun a b c => max_le_iff)] at hm
    exact ⟨m, rfl, hm.1, hm.2⟩

/-- On a list containing two distinct values, `normaliseBetween` never
divides by zero: it is the pointwise affine map sending `amin` to `mn`
and `amax` to `mx`, and the minimum is strictly below the maximum. -/
lemma normaliseBetween_nondegen (l : List ℚ) (mn mx a b : ℚ)
    (ha : a ∈ l) (hb : b ∈ l) (hab : a ≠ b) :
    ∃ amin amax : ℚ,
      l.min? = some amin ∧ l.max? = some amax
      ∧ amin ∈ l ∧ amax ∈ l ∧ (∀ x ∈ l, amin ≤ x ∧ x ≤ amax) ∧ amin < amax
      ∧ normaliseBetween l mn mx
          = l.map fun v => some ((v - amin) * (mx - mn) / (amax - amin) + mn) := by
  have hne : l ≠ [] := by
    intro h
    rw [h] at ha
    exact absurd ha (List.not_mem_nil a)
  obtain ⟨amin, hminEq, hminMem, hminLe⟩ := min?_spec l hne
  obtain ⟨amax, hmaxEq, hmaxMem, hmaxLe⟩ := max?_spec l hne
  have hlt : amin < amax := by
    rcases lt_or_gt_of_ne hab with hl | hl
    · exact lt_of_le_of_lt (hminLe a ha) (lt_of_lt_of_le hl (hmaxLe b hb))
    · exact lt_of_le_of_lt (hminLe b hb) (lt_of_lt_of_le hl (hmaxLe a ha))
  refine ⟨amin, amax, hminEq, hmaxEq, hminMem, hmaxMem,
    fun x hx => ⟨hminLe x hx, hmaxLe x hx⟩, hlt, ?_⟩
  unfold normaliseBetween
  rw [hminEq, hmaxEq]
  simp only [Option.getD_some]
  have hd : amax - amin ≠ 0 := sub_ne_zero.2 (ne_of_gt hlt)
  refine List.map_congr_left fun v hv => ?_
  rw [jsDiv, if_neg hd, Option.map_some']

/-- Monotonicity of the affine rescaling map used by `normaliseBetween`
when the minimum is strictly below the maximum and the target range is
ordered. -/
lemma affine_mono (amin amax mn mx v w : ℚ) (hlt : amin < amax) (hmn : mn ≤ mx)
    (hvw : v ≤ w) :
    (v - amin) * (mx - mn) / (amax - amin) + mn
      ≤ (w - amin) * (mx - mn) / (amax - amin) + mn := by
  have hd : 0 < amax - amin := sub_pos.2 hlt
  have h1 : (v - amin) * (mx - mn) ≤ (w - amin) * (mx - mn) :=
    mul_le_mul_of_nonneg_right (by linarith) (by linarith)
  have h2 : (v - amin) * (mx - mn) / (amax - amin)
      ≤ (w - amin) * (mx - mn) / (amax - amin) := (div_le_div_iff_of_pos_right hd).2 h1
  linarith

/-- The affine rescaling map sends the maximum of the list to `mx`. -/
lemma affine_at_max (amin amax mn mx : ℚ) (hlt : amin < amax) :
    (amax - amin) * (mx - mn) / (amax - amin) + mn = mx := by
  have hd : amax - amin ≠ 0 := sub_ne_zero.2 (ne_of_gt hlt)
  field_simp

/-- On a non-constant list, `normaliseBetween` returns only finite values
and they all lie between `mn` and `mx`. -/
lemma normaliseBetween_mem_bounds (l : List ℚ) (mn mx a b : ℚ)
    (ha : a ∈ l) (hb : b ∈ l) (hab : a ≠ b) (hmn : mn ≤ mx) :
    ∀ o ∈ normaliseBetween l mn mx, ∃ q : ℚ, o = some q ∧ mn ≤ q ∧ q ≤ mx := by
  obtain ⟨amin, amax, _, _, hminMem, hmaxMem, hbounds, hlt, hshape⟩ :=
    normaliseBetween_nondegen l mn mx a b ha hb hab
  intro o ho
  rw [hshape] at ho
  obtain ⟨v, hv, rfl⟩ := List.mem_map.1 ho
  refine ⟨_, rfl, ?_, ?_⟩
  · have h1 := affine_mono amin amax mn mx amin v hlt hmn (hbounds v hv).1
    simpa using h1
  · have h1 := affine_mono amin amax mn mx v amax hlt hmn (hbounds v hv).2
    rw [affine_at_max amin amax mn mx hlt] at h1
    exact h1

/-- Core of claims C4 and C6: on a non-constant list the result of
`normaliseBetween` is a list of finite values whose minimum is exactly
`mn` and whose maximum is exactly `mx`. -/
lemma normalise_minmax_core (l : List ℚ) (mn mx a b : ℚ)
    (ha : a ∈ l) (hb : b ∈ l) (hab : a ≠ b) (hmn : mn ≤ mx) :
    ∃ l' : List ℚ, normaliseBetween l mn mx = l'.map some
      ∧ l'.min? = some mn ∧ l'.max? = some mx := by
  obtain ⟨amin, amax, _, _, hminMem, hmaxMem, hbounds, hlt, hshape⟩ :=
    normaliseBetween_nondegen l mn mx a b ha hb hab
  have anti : Std.Antisymm ((· : ℚ) ≤ ·) := ⟨fun hu hv => le_antisymm hu hv⟩
  refine ⟨l.map fun v => (v - amin) * (mx - mn) / (amax - amin) + mn, ?_, ?_, ?_⟩
  · rw [hshape, List.map_map]
    rfl
  · rw [List.min?_eq_some_iff (fun a => le_refl a) (fun a b => min_choice a b)
      (fun a b c => le_min_iff)]
    constructor
    · refine List.mem_map.2 ⟨amin, hminMem, ?_⟩
      simp
    · intro y hy
      obtain ⟨v, hv, rfl⟩ := List.mem_map.1 hy
      have h1 := affine_mono amin amax mn mx amin v hlt hmn (hbounds v hv).1
      simpa using h1
  · rw [List.max?_eq_some_iff (fun a => le_refl a) (fun a b => max_choice a b)
      (fun a b c => max_le_iff)]
    constructor
    · refine List.mem_map.2 ⟨amax, hmaxMem, ?_⟩
      exact affine_at_max amin amax mn mx hlt
    · intro y hy
      obtain ⟨v, hv, rfl⟩ := List.mem_map.1 hy
      have h1 := affine_mono amin amax mn mx v amax hlt hmn (hbounds v hv).2
      rw [affine_at_max amin amax mn mx hlt] at h1
      exact h1

/-- Claim C4: on any input with two distinct values, `normaliseBetween`
returns finite values with minimum exactly `mn` and maximum exactly `mx`;
consequently `generate` with normalisation on, applied where the raw
noise grid is non-constant, returns values with minimum exactly 0 and
maximum exactly 1. -/
theorem claim4_normalise_min_max (l : List ℚ) (mn mx a b : ℚ)
    (ha : a ∈ l) (hb : b ∈ l) (hab : a ≠ b) (hmn : mn ≤ mx) :
    (∃ l' : List ℚ, normaliseBetween l mn mx = l'.map some
        ∧ l'.min? = some mn ∧ l'.max? = some mx)
    ∧ ∀ (lod : ℕ) (frequency : ℚ) (exponent : ℕ) (amplitudes : List ℚ)
        (noise2D : ℚ → ℚ → ℚ) (u w : ℚ),
        u ∈ nvsList lod frequency exponent amplitudes noise2D →
        w ∈ nvsList lod frequency exponent amplitudes noise2D → u ≠ w →
        ∃ l' : List ℚ,
          generate lod frequency exponent amplitudes true noise2D = l'.map some
          ∧ l'.min? = some 0 ∧ l'.max? = some 1 := by
  refine ⟨normalise_minmax_core l mn mx a b ha hb hab hmn, ?_⟩
  intro lod fr ex amps f u w hu hw huw
  have h := normalise_minmax_core (nvsList lod fr ex amps f) 0 1 u w hu hw huw
    (by norm_num)
  simpa [generate] using h

/-- Witness for claim C4 on the list `[0, 2]` rescaled to `[0, 1]`. -/
theorem claim4_witness :
    ∃ l' : List ℚ, normaliseBetween [(0 : ℚ), 2] 0 1 = l'.map some
      ∧ l'.min? = some 0 ∧ l'.max? = some 1 :=
  (claim4_normalise_min_max [0, 2] 0 1 0 2 (by simp) (by simp) (by norm_num)
    (by norm_num)).1

/-- With a base noise function bounded in `[-1, 1]` and a non-empty
positive amplitude schedule, `Noise` always returns a value in `[0, 1]`:
the weighted average before exponentiation lies in `[0, 1]` and raising a
non-negative base at most `1` to a natural power keeps it there. -/
lemma Noise_mem_unit (noise2D : ℚ → ℚ → ℚ) (amplitudes : List ℚ)
    (exponent : ℕ) (x y : ℚ)
    (hne : amplitudes ≠ []) (hpos : ∀ a ∈ amplitudes, 0 < a)
    (hbound : ∀ u v, -1 ≤ noise2D u v ∧ noise2D u v ≤ 1) :
    0 ≤ Noise noise2D amplitudes exponent x y
      ∧ Noise noise2D amplitudes exponent x y ≤ 1 := by
  rw [Noise_eq]
  have hnv : ∀ u v, 0 ≤ nv noise2D u v ∧ nv noise2D u v ≤ 1 := by
    intro u v
    have h := hbound u v
    unfold nv
    norm_num
    constructor <;> linarith [h.1, h.2]
  have ht : 0 < (amplitudes.map fun a => 1 / a).sum := by
    apply List.sum_pos
    · intro q hq
      obtain ⟨a, haMem, rfl⟩ := List.mem_map.1 hq
      exact one_div_pos.2 (hpos a haMem)
    · simpa using hne
  have he0 : 0 ≤ (amplitudes.map fun a => (1 / a) * nv noise2D (x * a) (y * a)).sum := by
    apply List.sum_nonneg
    intro q hq
    obtain ⟨a, haMem, rfl⟩ := List.mem_map.1 hq
    exact mul_nonneg (le_of_lt (one_div_pos.2 (hpos a haMem))) (hnv _ _).1
  have hle : (amplitudes.map fun a => (1 / a) * nv noise2D (x * a) (y * a)).sum
      ≤ (amplitudes.map fun a => 1 / a).sum := by
    apply List.sum_le_sum
    intro a haMem
    calc (1 / a) * nv noise2D (x * a) (y * a)
        ≤ (1 / a) * 1 :=
          mul_le_mul_of_nonneg_left (hnv _ _).2 (le_of_lt (one_div_pos.2 (hpos a haMem)))
      _ = 1 / a := mul_one _
  have hq0 : 0 ≤ (amplitudes.map fun a => (1 / a) * nv noise2D (x * a) (y * a)).sum
      / (amplitudes.map fun a => 1 / a).sum := div_nonneg he0 ht.le
  have hq1 : (amplitudes.map fun a => (1 / a) * nv noise2D (x * a) (y * a)).sum
      / (amplitudes.map fun a => 1 / a).sum ≤ 1 := (div_le_one ht).2 hle
  exact ⟨pow_nonneg hq0 _, pow_le_one₀ hq0 hq1⟩

/-- Claim C6 counterexample: a constant base noise function has values in
`[-1, 1]`, yet `generate` with normalisation on produces `NaN` (modelled
`none`), which is not a value in `[0, 1]`; the claim fails as stated for
`normalize = true`. -/
theorem claim6_counterexample :
    (∀ u v : ℚ, -1 ≤ (fun _ _ => (0 : ℚ)) u v ∧ (fun _ _ => (0 : ℚ)) u v ≤ 1)
    ∧ generate 1 1 1 [1] true (fun _ _ => (0 : ℚ)) = [none]
    ∧ ¬ (∀ o ∈ generate 1 1 1 [1] true (fun _ _ => (0 : ℚ)),
          ∃ q : ℚ, o = some q ∧ 0 ≤ q ∧ q ≤ 1) := by
  have hnvs : nvsList 1 1 1 [1] (fun _ _ => (0 : ℚ)) = [1 / 2] := by
    rw [nvsList, show List.range (1 * 1) = [0] from rfl]
    rw [List.map_cons, List.map_nil, Noise_eq]
    norm_num [nv]
  have hgen : generate 1 1 1 [1] true (fun _ _ => (0 : ℚ)) = [none] := by
    rw [generate, if_pos rfl, hnvs, normaliseBetween,
      show ([1 / 2] : List ℚ).min? = some (1 / 2) from rfl,
      show ([1 / 2] : List ℚ).max? = some (1 / 2) from rfl]
    simp [jsDiv]
  refine ⟨fun u v => by norm_num, hgen, ?_⟩
  intro hall
  obtain ⟨q, hq, _⟩ := hall none (by rw [hgen]; exact List.mem_singleton.2 rfl)
  exact Option.noConfusion hq

/-- Claim C6 (amended): with a base noise function bounded in `[-1, 1]`,
a positive non-empty amplitude schedule and exponent at least 1, every
value produced by `generate` without normalisation lies in `[0, 1]`; with
normalisation the same holds provided the raw noise grid is non-constant
(on a constant grid normalisation produces `NaN`, see the counterexample). -/
theorem claim6_values_in_unit_interval (lod : ℕ) (frequency : ℚ)
    (exponent : ℕ) (amplitudes : List ℚ) (noise2D : ℚ → ℚ → ℚ)
    (hne : amplitudes ≠ []) (hpos : ∀ a ∈ amplitudes, 0 < a)
    (hexp : 1 ≤ exponent)
    (hbound : ∀ u v, -1 ≤ noise2D u v ∧ noise2D u v ≤ 1) :
    (∀ o ∈ generate lod frequency exponent amplitudes false noise2D,
        ∃ q : ℚ, o = some q ∧ 0 ≤ q ∧ q ≤ 1)
    ∧ ((∃ u ∈ nvsList lod frequency exponent amplitudes noise2D,
          ∃ w ∈ nvsList lod frequency exponent amplitudes noise2D, u ≠ w) →
        ∀ o ∈ generate lod frequency exponent amplitudes true noise2D,
          ∃ q : ℚ, o = some q ∧ 0 ≤ q ∧ q ≤ 1) := by
  constructor
  · intro o ho
    have ho2 : o ∈ (nvsList lod frequency exponent amplitudes noise2D).map some := by
      simpa [generate] using ho
    obtain ⟨q, hq, rfl⟩ := List.mem_map.1 ho2
    rw [nvsList] at hq
    obtain ⟨i, hi, rfl⟩ := List.mem_map.1 hq
    exact ⟨_, rfl, (Noise_mem_unit noise2D amplitudes exponent _ _ hne hpos hbound).1,
      (Noise_mem_unit noise2D amplitudes exponent _ _ hne hpos hbound).2⟩
  · rintro ⟨u, hu, w, hw, huw⟩ o ho
    have ho2 : o ∈ normaliseBetween (nvsList lod frequency exponent amplitudes noise2D) 0 1 := by
      simpa [generate] using ho
    exact normaliseBetween_mem_bounds _ 0 1 u w hu hw huw (by norm_num) o ho2

/-- Witness for claim C6 at concrete parameters. -/
theorem claim6_witness :
    ∃ q : ℚ, some (1 / 2 : ℚ) = some q ∧ 0 ≤ q ∧ q ≤ 1 :=
  (claim6_values_in_unit_interval 1 1 1 [1] (fun _ _ => 0) (by simp) (by norm_num)
      (le_refl 1) (fun u v => by norm_num)).1 (some (1 / 2))
    (by
      rw [generate, if_neg (by simp)]
      have hnvs : nvsList 1 1 1 [1] (fun _ _ => (0 : ℚ)) = [1 / 2] := by
        rw [nvsList, show List.range (1 * 1) = [0] from rfl]
        rw [List.map_cons, List.map_nil, Noise_eq]
        norm_num [nv]
      rw [hnvs]
      exact List.mem_singleton.2 rfl)

/-- Claim C9 counterexample: on the constant list `[5, 5]` the inputs at
indices 0 and 1 satisfy `values[0] ≤ values[1]`, yet the corresponding
outputs are `NaN` and the JS comparison `output[0] <= output[1]` is
false; the claim fails as stated for constant input sequences. -/
theorem claim9_counterexample :
    ((5 : ℚ) ≤ 5)
    ∧ ((0 : ℚ) ≤ 1)
    ∧ jsLe ((normaliseBetween [5, 5] 0 1).getD 0 none)
        ((normaliseBetween [5, 5] 0 1).getD 1 none) = false := by
  have h : normaliseBetween [5, 5] 0 1 = [none, none] := by
    rw [normaliseBetween,
      show ([5, 5] : List ℚ).min? = some (min 5 5) from rfl,
      show ([5, 5] : List ℚ).max? = some (max 5 5) from rfl]
    simp [jsDiv]
  refine ⟨le_refl _, by norm_num, ?_⟩
  rw [h]
  rfl

/-- Claim C9 (amended): `normaliseBetween` always preserves length, and
on any input containing two distinct values it preserves relative order:
if `values[i] ≤ values[j]` then `output[i] <= output[j]` holds in the JS
sense. -/
theorem claim9_order_preserved (l : List ℚ) (mn mx : ℚ) (hmn : mn ≤ mx) :
    (normaliseBetween l mn mx).length = l.length
    ∧ ∀ a b, a ∈ l → b ∈ l → a ≠ b →
        ∀ i j vi vj, l[i]? = some vi → l[j]? = some vj → vi ≤ vj →
          jsLe ((normaliseBetween l mn mx).getD i none)
            ((normaliseBetween l mn mx).getD j none) = true := by
  constructor
  · simp [normaliseBetween]
  · intro a b ha hb hab i j vi vj hvi hvj hle
    obtain ⟨amin, amax, _, _, _, _, hbounds, hlt, hshape⟩ :=
      normaliseBetween_nondegen l mn mx a b ha hb hab
    rw [hshape]
    have hgi : (l.map fun v => some ((v - amin) * (mx - mn) / (amax - amin) + mn)).getD i none
        = some ((vi - amin) * (mx - mn) / (amax - amin) + mn) := by
      rw [List.getD_eq_getElem?_getD, List.getElem?_map, hvi, Option.map_some',
        Option.getD_some]
    have hgj : (l.map fun v => some ((v - amin) * (mx - mn) / (amax - amin) + mn)).getD j none
        = some ((vj - amin) * (mx - mn) / (amax - amin) + mn) := by
      rw [List.getD_eq_getElem?_getD, List.getElem?_map, hvj, Option.map_some',
        Option.getD_some]
    rw [hgi, hgj]
    simp only [jsLe, decide_eq_true_eq]
    exact affine_mono amin amax mn mx vi vj hlt hmn hle

/-- Witness for claim C9 on the list `[0, 2]` rescaled to `[0, 1]`. -/
theorem claim9_witness :
    (normaliseBetween [(0 : ℚ), 2] 0 1).length = ([(0 : ℚ), 2]).length
    ∧ jsLe ((normaliseBetween [(0 : ℚ), 2] 0 1).getD 0 none)
        ((normaliseBetween [(0 : ℚ), 2] 0 1).getD 1 none) = true :=
  ⟨(claim9_order_preserved [0, 2] 0 1 (by norm_num)).1,
   (claim9_order_preserved [0, 2] 0 1 (by norm_num)).2 0 2 (by simp) (by simp)
     (by norm_num) 0 1 0 2 rfl rfl (by norm_num)⟩

end Heightmap
